import Mathlib

/-!
Formal model of the Smart Delivery load-packing and route-sequencing engines
(`Pythonfiles/pack_dispatch.py`, `Pythonfiles/routing_opt.py`,
`Pythonfiles/optimize_route.py`), together with theorems settling the design
document's claims against the code.

Modelling conventions:
* Truck dimensions and package dimensions are integers (`ℤ`), matching the
  `int(...)` casts in `pack_dispatch.py`; weights are exact rationals (`ℚ`)
  standing for the Python floats comparisons and sums.
* Database I/O is abstracted away: `pack` takes the truck spec and the
  already-ordered package list (the `ORDER BY` of `load_packages`), and the
  routing functions take the distance data directly.
-/

namespace SmartDelivery

/-- Truck interior dimensions (cm) and weight capacity (lbs), as produced by
`get_truck` in `pack_dispatch.py` (dimensions cast to `int`, `Max_weight_lbs`
to `float`). -/
structure TruckSpec where
  L : ℤ
  W : ℤ
  H : ℤ
  maxW : ℚ
deriving DecidableEq

/-- One package row of `load_packages` in `pack_dispatch.py`. -/
structure Package where
  pid : ℕ
  weight : ℚ
  len : ℤ
  wid : ℤ
  hei : ℤ
  fragile : Bool
  stopSeq : ℤ
deriving DecidableEq

/-- One entry of the `placed` list built by `pack` in `pack_dispatch.py`. -/
structure Placement where
  pid : ℕ
  x : ℤ
  y : ℤ
  z : ℤ
  len : ℤ
  wid : ℤ
  hei : ℤ
  fragile : Bool
  stopSeq : ℤ
deriving DecidableEq

/-- The mutable loop state of `pack`: cursor `(x, y, z)`, `row_depth`,
`layer_height`, `total_weight` and the `placed` accumulator. -/
structure PackState where
  x : ℤ
  y : ℤ
  z : ℤ
  rowDepth : ℤ
  layerHeight : ℤ
  totalWeight : ℚ
  placed : List Placement
deriving DecidableEq

/-- Lines 79-82 of `pack_dispatch.py`: `if x + r.Length_cm > L: x = 0;
y += row_depth; row_depth = 0`. -/
def wrapX (t : TruckSpec) (r : Package) (s : PackState) : PackState :=
  if s.x + r.len > t.L then { s with x := 0, y := s.y + s.rowDepth, rowDepth := 0 } else s

/-- Lines 85-89 of `pack_dispatch.py`: `if y + r.Width_cm > W: x = 0; y = 0;
z += layer_height; layer_height = 0`. -/
def wrapY (t : TruckSpec) (r : Package) (s : PackState) : PackState :=
  if s.y + r.wid > t.W then
    { s with x := 0, y := 0, z := s.z + s.layerHeight, layerHeight := 0 }
  else s

/-- Lines 95-110 of `pack_dispatch.py`: append the placement record and advance
the cursor and the row/layer maxima. -/
def place (r : Package) (s : PackState) : PackState :=
  { s with
    placed := s.placed ++ [⟨r.pid, s.x, s.y, s.z, r.len, r.wid, r.hei, r.fragile, r.stopSeq⟩],
    totalWeight := s.totalWeight + r.weight,
    x := s.x + r.len,
    rowDepth := max s.rowDepth r.wid,
    layerHeight := max s.layerHeight r.hei }

/-- One iteration of the `for _, r in packages.iterrows()` loop of `pack`
(`pack_dispatch.py` lines 73-110): skip on the weight budget, wrap the cursor
along x then y, skip when out of vertical space, otherwise place. -/
def packStep (t : TruckSpec) (s : PackState) (r : Package) : PackState :=
  if s.totalWeight + r.weight > t.maxW then s
  else if (wrapY t r (wrapX t r s)).z + r.hei > t.H then wrapY t r (wrapX t r s)
  else place r (wrapY t r (wrapX t r s))

/-- The initial loop state of `pack`: cursor at the origin, nothing placed. -/
def packInit : PackState := ⟨0, 0, 0, 0, 0, 0, []⟩

/-- The placement loop of `pack` run over the whole package list. -/
def packLoop (t : TruckSpec) (ps : List Package) : PackState :=
  ps.foldl (packStep t) packInit

/-- Round to the nearest integer with ties to even, on exact rationals: the
rounding mode of Python's `round`. -/
def rndHalfEven (q : ℚ) : ℤ :=
  if q - (⌊q⌋ : ℚ) < 1 / 2 then ⌊q⌋
  else if (1 / 2 : ℚ) < q - (⌊q⌋ : ℚ) then ⌊q⌋ + 1
  else if ⌊q⌋ % 2 = 0 then ⌊q⌋ else ⌊q⌋ + 1

/-- Python `round(x, 1)` on exact rationals. -/
def round1 (q : ℚ) : ℚ := (rndHalfEven (q * 10) : ℚ) / 10

/-- The value returned by `pack` (`pack_dispatch.py` lines 112-118 and 159):
placements, accumulated placed weight, and the two utilization metrics. -/
structure PackResult where
  placed : List Placement
  totalWeight : ℚ
  utilWeight : ℚ
  utilVolume : ℚ
deriving DecidableEq

/-- The packing engine `pack` of `pack_dispatch.py`, with the database reads
and writes abstracted away: the input list is the package list in the order
produced by `load_packages`. -/
def pack (t : TruckSpec) (ps : List Package) : PackResult :=
  let s := packLoop t ps
  let utilW := if t.maxW > 0 then round1 (s.totalWeight / t.maxW * 100) else 0
  let usedVol := (s.placed.map (fun p => p.len * p.wid * p.hei)).sum
  let tVol := t.L * t.W * t.H
  let utilV := if tVol > 0 then round1 ((usedVol : ℚ) / (tVol : ℚ) * 100) else 0
  ⟨s.placed, s.totalWeight, utilW, utilV⟩

/-- A placement's box lies fully inside the truck interior: the invariant of
the spec's data-model section for `Placement`. -/
def inBounds (t : TruckSpec) (p : Placement) : Prop :=
  0 ≤ p.x ∧ p.x + p.len ≤ t.L ∧ 0 ≤ p.y ∧ p.y + p.wid ≤ t.W ∧
    0 ≤ p.z ∧ p.z + p.hei ≤ t.H

instance (t : TruckSpec) (p : Placement) : Decidable (inBounds t p) := by
  unfold inBounds; infer_instance

/-- Nonnegativity of the cursor state, preserved throughout the packing loop. -/
def cursorInv (s : PackState) : Prop :=
  0 ≤ s.x ∧ 0 ≤ s.y ∧ 0 ≤ s.z ∧ 0 ≤ s.rowDepth ∧ 0 ≤ s.layerHeight

lemma wrapX_placed (t : TruckSpec) (r : Package) (s : PackState) :
    (wrapX t r s).placed = s.placed := by
  unfold wrapX; split <;> rfl

lemma wrapY_placed (t : TruckSpec) (r : Package) (s : PackState) :
    (wrapY t r s).placed = s.placed := by
  unfold wrapY; split <;> rfl

lemma wrapX_totalWeight (t : TruckSpec) (r : Package) (s : PackState) :
    (wrapX t r s).totalWeight = s.totalWeight := by
  unfold wrapX; split <;> rfl

lemma wrapY_totalWeight (t : TruckSpec) (r : Package) (s : PackState) :
    (wrapY t r s).totalWeight = s.totalWeight := by
  unfold wrapY; split <;> rfl

lemma wrapX_cursorInv (t : TruckSpec) (r : Package) (s : PackState)
    (h : cursorInv s) : cursorInv (wrapX t r s) := by
  obtain ⟨hx, hy, hz, hrd, hlh⟩ := h
  unfold wrapX; split
  · exact ⟨le_refl 0, add_nonneg hy hrd, hz, le_refl 0, hlh⟩
  · exact ⟨hx, hy, hz, hrd, hlh⟩

lemma wrapY_cursorInv (t : TruckSpec) (r : Package) (s : PackState)
    (h : cursorInv s) : cursorInv (wrapY t r s) := by
  obtain ⟨hx, hy, hz, hrd, hlh⟩ := h
  unfold wrapY; split
  · exact ⟨le_refl 0, le_refl 0, add_nonneg hz hlh, hrd, le_refl 0⟩
  · exact ⟨hx, hy, hz, hrd, hlh⟩

lemma wrapX_x_le (t : TruckSpec) (r : Package) (s : PackState)
    (h : r.len ≤ t.L) : (wrapX t r s).x + r.len ≤ t.L := by
  unfold wrapX; split
  · simpa using h
  · next hnot => simpa using le_of_not_lt hnot

lemma wrapY_x_le (t : TruckSpec) (r : Package) (s : PackState)
    (h : r.len ≤ t.L) (hx : s.x + r.len ≤ t.L) : (wrapY t r s).x + r.len ≤ t.L := by
  unfold wrapY; split
  · simpa using h
  · exact hx

lemma wrapY_y_le (t : TruckSpec) (r : Package) (s : PackState)
    (h : r.wid ≤ t.W) : (wrapY t r s).y + r.wid ≤ t.W := by
  unfold wrapY; split
  · simpa using h
  · next hnot => simpa using le_of_not_lt hnot

/-- The combined step invariant: cursor nonnegativity plus soundness of all
recorded placements, assuming the package's dimensions are nonnegative and
fit along the primary and secondary axes. -/
lemma packStep_inv (t : TruckSpec) (s : PackState) (r : Package)
    (h1 : 0 ≤ r.len) (h2 : r.len ≤ t.L) (h3 : 0 ≤ r.wid) (h4 : r.wid ≤ t.W)
    (h5 : 0 ≤ r.hei)
    (hc : cursorInv s) (hp : ∀ pl ∈ s.placed, inBounds t pl) :
    cursorInv (packStep t s r) ∧ ∀ pl ∈ (packStep t s r).placed, inBounds t pl := by
  have hc2 : cursorInv (wrapY t r (wrapX t r s)) :=
    wrapY_cursorInv t r _ (wrapX_cursorInv t r s hc)
  have hplaced2 : (wrapY t r (wrapX t r s)).placed = s.placed := by
    rw [wrapY_placed, wrapX_placed]
  have hxle : (wrapY t r (wrapX t r s)).x + r.len ≤ t.L :=
    wrapY_x_le t r _ h2 (wrapX_x_le t r s h2)
  have hyle : (wrapY t r (wrapX t r s)).y + r.wid ≤ t.W :=
    wrapY_y_le t r _ h4
  unfold packStep
  split
  · exact ⟨hc, hp⟩
  · split
    · exact ⟨hc2, by rw [hplaced2]; exact hp⟩
    · next hzfit =>
      obtain ⟨hx2, hy2, hz2, hrd2, hlh2⟩ := hc2
      constructor
      · exact ⟨add_nonneg hx2 h1, hy2, hz2, le_max_of_le_right h3, le_max_of_le_right h5⟩
      · intro pl hpl
        unfold place at hpl
        simp only [List.mem_append, List.mem_singleton] at hpl
        rcases hpl with hold | hnew
        · exact hp pl (by rwa [hplaced2] at hold)
        · subst hnew
          exact ⟨hx2, hxle, hy2, hyle, hz2, by simpa using le_of_not_lt hzfit⟩

lemma packLoop_inv (t : TruckSpec) (ps : List Package)
    (hdims : ∀ p ∈ ps, 0 ≤ p.len ∧ p.len ≤ t.L ∧ 0 ≤ p.wid ∧ p.wid ≤ t.W ∧ 0 ≤ p.hei) :
    ∀ pl ∈ (packLoop t ps).placed, inBounds t pl := by
  have main : ∀ (l : List Package) (s : PackState),
      (∀ p ∈ l, 0 ≤ p.len ∧ p.len ≤ t.L ∧ 0 ≤ p.wid ∧ p.wid ≤ t.W ∧ 0 ≤ p.hei) →
      cursorInv s → (∀ pl ∈ s.placed, inBounds t pl) →
      ∀ pl ∈ (l.foldl (packStep t) s).placed, inBounds t pl := by
    intro l
    induction l with
    | nil => intro s _ _ hp; simpa using hp
    | cons r rest ih =>
      intro s hl hc hp
      obtain ⟨hr1, hr2, hr3, hr4, hr5⟩ := hl r (List.mem_cons_self r rest)
      obtain ⟨hc', hp'⟩ := packStep_inv t s r hr1 hr2 hr3 hr4 hr5 hc hp
      simpa using ih (packStep t s r)
        (fun p hpmem => hl p (List.mem_cons_of_mem r hpmem)) hc' hp'
  exact main ps packInit hdims ⟨le_refl 0, le_refl 0, le_refl 0, le_refl 0, le_refl 0⟩
    (by intro pl h; simp [packInit] at h)

/-- C1 (counterexample): with a truck of interior length 1 and a package of
length 2 (within weight budget, fitting on the other axes), `pack` records a
placement whose box extends beyond the truck length: after the x-wrap resets
the cursor to 0 the length test is never re-checked, so the claimed bound
`x + length ≤ L` fails. -/
theorem pack_oversized_placement_counterexample :
    ¬ (∀ pl ∈ (pack ⟨1, 5, 5, 10⟩ [⟨0, 1, 2, 1, 1, false, 0⟩]).placed,
        inBounds ⟨1, 5, 5, 10⟩ pl) := by
  norm_num [pack, packLoop, packStep, wrapX, wrapY, place, packInit, inBounds, round1, rndHalfEven]

/-- C1 (amended): every placement recorded by `pack` lies fully within the
truck interior (`0 ≤ x`, `x + len ≤ L`, `0 ≤ y`, `y + wid ≤ W`, `0 ≤ z`,
`z + hei ≤ H`) provided every package has nonnegative dimensions and its
length and width do not exceed the truck's length and width. (The height
needs no upper-bound hypothesis: the z-axis check drops too-tall packages.) -/
theorem pack_placed_in_bounds (t : TruckSpec) (ps : List Package)
    (hdims : ∀ p ∈ ps, 0 ≤ p.len ∧ p.len ≤ t.L ∧ 0 ≤ p.wid ∧ p.wid ≤ t.W ∧ 0 ≤ p.hei) :
    ∀ pl ∈ (pack t ps).placed, inBounds t pl := by
  have h : (pack t ps).placed = (packLoop t ps).placed := rfl
  rw [h]
  exact packLoop_inv t ps hdims

/-- Witness for C1 (amended) at a concrete input: a 2×2×2 package in a
5×5×5 truck. -/
theorem pack_placed_in_bounds_witness :
    (∀ p ∈ [(⟨0, 1, 2, 2, 2, false, 0⟩ : Package)],
      0 ≤ p.len ∧ p.len ≤ (5 : ℤ) ∧ 0 ≤ p.wid ∧ p.wid ≤ (5 : ℤ) ∧ 0 ≤ p.hei) ∧
    (∀ pl ∈ (pack ⟨5, 5, 5, 10⟩ [⟨0, 1, 2, 2, 2, false, 0⟩]).placed,
      inBounds ⟨5, 5, 5, 10⟩ pl) :=
  ⟨by norm_num, pack_placed_in_bounds ⟨5, 5, 5, 10⟩ [⟨0, 1, 2, 2, 2, false, 0⟩] (by norm_num)⟩

lemma packStep_weight_le (t : TruckSpec) (s : PackState) (r : Package)
    (h : s.totalWeight ≤ t.maxW) : (packStep t s r).totalWeight ≤ t.maxW := by
  unfold packStep
  split
  · exact h
  · next hfit =>
    have hw : s.totalWeight + r.weight ≤ t.maxW := le_of_not_lt hfit
    have h2 : (wrapY t r (wrapX t r s)).totalWeight = s.totalWeight := by
      rw [wrapY_totalWeight, wrapX_totalWeight]
    split
    · rw [h2]; exact h
    · show (place r (wrapY t r (wrapX t r s))).totalWeight ≤ t.maxW
      unfold place
      simpa [h2] using hw

lemma packLoop_weight_le (t : TruckSpec) (h : 0 ≤ t.maxW) (ps : List Package) :
    (packLoop t ps).totalWeight ≤ t.maxW := by
  have main : ∀ (l : List Package) (s : PackState), s.totalWeight ≤ t.maxW →
      (l.foldl (packStep t) s).totalWeight ≤ t.maxW := by
    intro l
    induction l with
    | nil => intro s hs; simpa using hs
    | cons r rest ih =>
      intro s hs
      simpa using ih (packStep t s r) (packStep_weight_le t s r hs)
  exact main ps packInit h

/-- C2: the running placed-weight total of `pack` never exceeds the truck's
maximum weight — at every intermediate point of the placement loop (every
prefix of the package list) and in the final result — because a package is
placed only when `total_weight + weight ≤ max_weight`. Requires only that
the capacity is nonnegative. -/
theorem pack_weight_within_capacity (t : TruckSpec) (ps : List Package)
    (h : 0 ≤ t.maxW) :
    (∀ pre suf, ps = pre ++ suf → (packLoop t pre).totalWeight ≤ t.maxW) ∧
    (pack t ps).totalWeight ≤ t.maxW := by
  refine ⟨fun pre _ _ => packLoop_weight_le t h pre, ?_⟩
  have heq : (pack t ps).totalWeight = (packLoop t ps).totalWeight := rfl
  rw [heq]
  exact packLoop_weight_le t h ps

/-- Witness for C2 at a concrete input: capacity 5, weights 3 then 4 (the
second package is skipped and the total stays at 3 ≤ 5). -/
theorem pack_weight_within_capacity_witness :
    (0 : ℚ) ≤ 5 ∧
    ((∀ pre suf,
        ([⟨0, 3, 1, 1, 1, false, 0⟩, ⟨1, 4, 1, 1, 1, false, 0⟩] : List Package) =
          pre ++ suf →
        (packLoop ⟨10, 10, 10, 5⟩ pre).totalWeight ≤ (5 : ℚ)) ∧
      (pack ⟨10, 10, 10, 5⟩
          [⟨0, 3, 1, 1, 1, false, 0⟩, ⟨1, 4, 1, 1, 1, false, 0⟩]).totalWeight ≤ (5 : ℚ)) :=
  ⟨by norm_num,
    pack_weight_within_capacity ⟨10, 10, 10, 5⟩
      [⟨0, 3, 1, 1, 1, false, 0⟩, ⟨1, 4, 1, 1, 1, false, 0⟩] (by norm_num)⟩

/-- C7 (counterexample): `pack` performs no input validation. On a truck with
every interior dimension `≤ 0` (an `InvalidInput` situation per the spec) it
still runs the placement algorithm and records a placement instead of
signalling an error. -/
theorem pack_no_invalid_input_rejection :
    (⟨0, 0, 0, 0⟩ : TruckSpec).L ≤ 0 ∧
    (pack ⟨0, 0, 0, 0⟩ [⟨0, 0, 0, 0, 0, false, 0⟩]).placed ≠ [] := by
  norm_num [pack, packLoop, packStep, wrapX, wrapY, place, packInit, inBounds, round1, rndHalfEven]

/-- C7 (amended): `pack` contains no validity checks at all — an all-zero
truck spec together with a negative-weight, zero-dimension package flows
through the algorithm unhindered: the package is placed at the origin and the
accumulated weight is the negative weight. -/
theorem pack_runs_without_validation :
    pack ⟨0, 0, 0, 0⟩ [⟨0, -1, 0, 0, 0, false, 0⟩] =
      ⟨[⟨0, 0, 0, 0, 0, 0, 0, false, 0⟩], -1, 0, 0⟩ := by
  norm_num [pack, packLoop, packStep, wrapX, wrapY, place, packInit, inBounds, round1, rndHalfEven]

/-- C10: skipping a package on the weight budget has no effect on the rest of
the run: if the package `p` at some position would push the running total over
`maxW`, then `pack` on the list with `p` removed returns exactly the same
result (same placements, same total weight, same utilization metrics),
because the `continue` fires before any state is mutated. -/
theorem pack_weight_skip_no_effect (t : TruckSpec) (pre : List Package)
    (p : Package) (suf : List Package)
    (h : (packLoop t pre).totalWeight + p.weight > t.maxW) :
    pack t (pre ++ p :: suf) = pack t (pre ++ suf) := by
  have hskip : packStep t (packLoop t pre) p = packLoop t pre := by
    unfold packStep; rw [if_pos h]
  have hloop : packLoop t (pre ++ p :: suf) = packLoop t (pre ++ suf) := by
    unfold packLoop
    rw [List.foldl_append, List.foldl_append, List.foldl_cons]
    unfold packLoop at hskip
    rw [hskip]
  unfold pack
  rw [hloop]

/-- Witness for C10 at a concrete input: capacity 10, prefix weight 8,
skipped package weight 5 (8 + 5 > 10), suffix weight 2. -/
theorem pack_weight_skip_no_effect_witness :
    (packLoop ⟨10, 10, 10, 10⟩ [⟨0, 8, 1, 1, 1, false, 0⟩]).totalWeight + (5 : ℚ) > 10 ∧
    pack ⟨10, 10, 10, 10⟩
        ([⟨0, 8, 1, 1, 1, false, 0⟩] ++ ⟨1, 5, 1, 1, 1, false, 0⟩ :: [⟨2, 2, 1, 1, 1, false, 0⟩]) =
      pack ⟨10, 10, 10, 10⟩ ([⟨0, 8, 1, 1, 1, false, 0⟩] ++ [⟨2, 2, 1, 1, 1, false, 0⟩]) :=
  ⟨by norm_num [packLoop, packStep, wrapX, wrapY, place, packInit],
    pack_weight_skip_no_effect ⟨10, 10, 10, 10⟩ [⟨0, 8, 1, 1, 1, false, 0⟩]
      ⟨1, 5, 1, 1, 1, false, 0⟩ [⟨2, 2, 1, 1, 1, false, 0⟩]
      (by norm_num [packLoop, packStep, wrapX, wrapY, place, packInit])⟩

section Routing

variable {K : Type*} [LinearOrderedField K]

/-!
The route-sequencing engine of `routing_opt.py` (and the nearest-neighbor-only
variant of `optimize_route.py`). Stops are identified by their index in the
input order; the pairwise great-circle distances enter as a function
`d : ℕ → ℕ → K` standing for `fun i j => haversine_km coords[i] coords[j]`
(the trigonometric distance itself is modelled separately, over `ℝ`, below).
The field `K` is instantiated at `ℚ` for concrete evaluation.
-/

/-- Model of `route_length` in `routing_opt.py` (lines 23-30): sum of `d` over
consecutive entries of the order. -/
def routeLen (d : ℕ → ℕ → K) : List ℕ → K
  | a :: b :: rest => d a b + routeLen d (b :: rest)
  | _ => 0

/-- CPython's `min(iterable, key=f)` folded over the iteration order `js` with
current best `b`: replace the best only on a strictly smaller key, so the
first minimizer in iteration order wins. -/
def minFold (f : ℕ → K) (b : ℕ) (js : List ℕ) : ℕ :=
  js.foldl (fun acc j => if f j < f acc then j else acc) b

/-- The selection step `min(unvisited, key=...)` of `nearest_neighbor` in
`routing_opt.py` (lines 42-46). The unvisited stops are kept as an ascending
list: a CPython `set` of the ints `0..n-1` iterates in ascending numeric
order (hash(int) = int and the table is larger than every element), and
removal never rehashes. -/
def argminFirst (f : ℕ → K) : List ℕ → Option ℕ
  | [] => none
  | j :: js => some (minFold f j js)

/-- The selection loop of `nearest_neighbor_order` in `optimize_route.py`
(lines 56-64): `best_j = None; best_d = 1e12`, replace on strictly smaller
distance while scanning `remaining` in order. -/
def argminSentinel (f : ℕ → K) (js : List ℕ) : Option ℕ :=
  (js.foldl (fun acc j => if f j < acc.2 then (some j, f j) else acc)
    ((none : Option ℕ), (10 ^ 12 : K))).1

/-- The `while unvisited` loop of `nearest_neighbor` (`routing_opt.py` lines
40-48), with fuel bounding the number of iterations (the Python loop runs
exactly `unvisited.length` times; any fuel at least that large is exact). -/
def nnLoop (d : ℕ → ℕ → K) : ℕ → ℕ → List ℕ → List ℕ
  | 0, _, _ => []
  | fuel + 1, last, unvis =>
    match argminFirst (fun j => d last j) unvis with
    | none => []
    | some nxt => nxt :: nnLoop d fuel nxt (unvis.erase nxt)

/-- Model of `nearest_neighbor(coords, start_idx)` in `routing_opt.py` (lines 33-49)
over `n` stops. -/
def nearestNeighbor (d : ℕ → ℕ → K) (n : ℕ) (start : ℕ) : List ℕ :=
  start :: nnLoop d n start ((List.range n).erase start)

/-- The in-place slice reversal `best[i:j+1] = reversed(best[i:j+1])` of
`two_opt` (`routing_opt.py` line 71). -/
def reverseSegment (l : List ℕ) (i j : ℕ) : List ℕ :=
  l.take i ++ ((l.drop i).take (j + 1 - i)).reverse ++ l.drop (j + 1)

/-- The index pairs `(i, j)` scanned by one pass of `two_opt`
(`routing_opt.py` lines 64-65): `i` in `range(1, n-2)`, `j` in
`range(i+1, n-1)`. -/
def pairsList (n : ℕ) : List (ℕ × ℕ) :=
  (List.range' 1 (n - 3)).flatMap
    (fun i => (List.range' (i + 1) (n - 2 - i)).map (fun j => (i, j)))

/-- The oscillation guard `1e-9` of `two_opt` (`routing_opt.py` line 70). -/
def twoOptEps : K := 1 / 1000000000

/-- The body of the inner `for j` loop of `two_opt` (`routing_opt.py` lines
66-72): accept the reversal when `new + 1e-9 < old`, carrying the `improved`
flag. -/
def twoOptStep (d : ℕ → ℕ → K) (s : List ℕ × Bool) (ij : ℕ × ℕ) : List ℕ × Bool :=
  if d (s.1.getD (ij.1 - 1) 0) (s.1.getD ij.2 0) +
        d (s.1.getD ij.1 0) (s.1.getD (ij.2 + 1) 0) + twoOptEps <
      d (s.1.getD (ij.1 - 1) 0) (s.1.getD ij.1 0) +
        d (s.1.getD ij.2 0) (s.1.getD (ij.2 + 1) 0)
  then (reverseSegment s.1 ij.1 ij.2, true)
  else s

/-- One full scan of `two_opt`'s nested loops with `improved` starting
`False`. -/
def twoOptPass (d : ℕ → ℕ → K) (best : List ℕ) : List ℕ × Bool :=
  (pairsList best.length).foldl (twoOptStep d) (best, false)

/-- The `while improved` loop of `two_opt` (`routing_opt.py` lines 62-73),
with fuel bounding the number of passes: run a pass, repeat while it
improved. -/
def twoOptLoop (d : ℕ → ℕ → K) : ℕ → List ℕ → List ℕ
  | 0, best => best
  | fuel + 1, best =>
    if (twoOptPass d best).2 then twoOptLoop d fuel (twoOptPass d best).1
    else (twoOptPass d best).1

/-- Iterate `N` successive passes of `two_opt`'s outer loop, keeping only the list. -/
def passIter (d : ℕ → ℕ → K) : ℕ → List ℕ → List ℕ
  | 0, b => b
  | k + 1, b => passIter d k (twoOptPass d b).1

lemma routeLen_append (d : ℕ → ℕ → K) (xs : List ℕ) (x y : ℕ) (ys : List ℕ)
    (hx : xs.getLast? = some x) :
    routeLen d (xs ++ y :: ys) = routeLen d xs + d x y + routeLen d (y :: ys) := by
  induction xs generalizing x with
  | nil => simp at hx
  | cons a rest ih =>
    cases rest with
    | nil =>
      simp only [List.getLast?_singleton, Option.some.injEq] at hx
      subst hx
      simp [routeLen]
    | cons b rest2 =>
      rw [List.getLast?_cons_cons] at hx
      have h := ih x hx
      show routeLen d (a :: b :: (rest2 ++ y :: ys)) = _
      rw [routeLen, routeLen]
      have h2 : (b :: rest2) ++ y :: ys = b :: (rest2 ++ y :: ys) := rfl
      rw [h2] at h
      rw [h]
      ring

lemma routeLen_reverse (d : ℕ → ℕ → K) (hsym : ∀ i j, d i j = d j i)
    (l : List ℕ) : routeLen d l.reverse = routeLen d l := by
  induction l with
  | nil => simp
  | cons a t ih =>
    cases t with
    | nil => simp
    | cons b t2 =>
      have hne : (b :: t2).reverse ≠ [] := by simp
      have hlast : (b :: t2).reverse.getLast? = some b := by
        rw [List.getLast?_reverse]; rfl
      have hrw : (a :: b :: t2).reverse = (b :: t2).reverse ++ a :: [] := by
        simp
      rw [hrw, routeLen_append d _ b a [] hlast, ih]
      show routeLen d (b :: t2) + d b a + 0 = d a b + routeLen d (b :: t2)
      rw [hsym b a]
      ring

lemma pairsList_mem {n : ℕ} {ij : ℕ × ℕ} (h : ij ∈ pairsList n) :
    1 ≤ ij.1 ∧ ij.1 < ij.2 ∧ ij.2 + 1 < n := by
  obtain ⟨i, j⟩ := ij
  simp only [pairsList, List.mem_flatMap, List.mem_map, List.mem_range'_1,
    Prod.mk.injEq] at h
  obtain ⟨i', ⟨hi1, hi2⟩, j', ⟨hj1, hj2⟩, hei, hej⟩ := h
  subst hei
  subst hej
  refine ⟨hi1, ?_, ?_⟩ <;> omega

lemma reverseSegment_length {l : List ℕ} {i j : ℕ} (hij : i < j)
    (hj : j + 1 < l.length) : (reverseSegment l i j).length = l.length := by
  simp only [reverseSegment, List.length_append, List.length_reverse,
    List.length_take, List.length_drop]
  omega

lemma reverseSegment_perm (l : List ℕ) (i j : ℕ) (hij : i ≤ j + 1) :
    List.Perm (reverseSegment l i j) l := by
  have hsplitM : l.drop i = (l.drop i).take (j + 1 - i) ++ l.drop (j + 1) := by
    conv_lhs => rw [← List.take_append_drop (j + 1 - i) (l.drop i)]
    rw [List.drop_drop]
    have h2 : i + (j + 1 - i) = j + 1 := by omega
    rw [h2]
  have hmain : List.Perm (((l.drop i).take (j + 1 - i)).reverse ++ l.drop (j + 1))
      (l.drop i) := by
    have hp : List.Perm (((l.drop i).take (j + 1 - i)).reverse ++ l.drop (j + 1))
        ((l.drop i).take (j + 1 - i) ++ l.drop (j + 1)) :=
      (List.reverse_perm _).append_right _
    rw [← hsplitM] at hp
    exact hp
  have h3 : List.Perm (l.take i ++ (((l.drop i).take (j + 1 - i)).reverse ++ l.drop (j + 1)))
      (l.take i ++ l.drop i) := hmain.append_left _
  rw [List.take_append_drop i l] at h3
  unfold reverseSegment
  rw [List.append_assoc]
  exact h3

/-- Reversing the segment `best[i:j+1]` replaces exactly the two boundary
edges: the route length changes by `new - old` where
`old = d best[i-1] best[i] + d best[j] best[j+1]` and
`new = d best[i-1] best[j] + d best[i] best[j+1]` (for symmetric `d`; the
interior edges are merely traversed backwards). Stated additively. -/
lemma routeLen_reverseSegment (d : ℕ → ℕ → K) (hsym : ∀ a b, d a b = d b a)
    (l : List ℕ) (i j : ℕ) (hi : 1 ≤ i) (hij : i < j) (hj : j + 1 < l.length) :
    routeLen d (reverseSegment l i j) +
        (d (l.getD (i - 1) 0) (l.getD i 0) + d (l.getD j 0) (l.getD (j + 1) 0)) =
      routeLen d l +
        (d (l.getD (i - 1) 0) (l.getD j 0) + d (l.getD i 0) (l.getD (j + 1) 0)) := by
  have hgetD : ∀ k, k < l.length → l[k]? = some (l.getD k 0) := fun k hk => by
    simp [List.getElem?_eq_getElem hk]
  have hAlast : (l.take i).getLast? = some (l.getD (i - 1) 0) := by
    rw [List.getLast?_eq_getElem?]
    have h1 : (l.take i).length = i := by simp; omega
    rw [h1, List.getElem?_take, if_pos (by omega : i - 1 < i)]
    exact hgetD (i - 1) (by omega)
  have hMhead : ((l.drop i).take (j + 1 - i)).head? = some (l.getD i 0) := by
    rw [List.head?_eq_getElem?, List.getElem?_take, if_pos (by omega : 0 < j + 1 - i),
      List.getElem?_drop]
    have h1 : i + 0 = i := by omega
    rw [h1]
    exact hgetD i (by omega)
  have hMlast : ((l.drop i).take (j + 1 - i)).getLast? = some (l.getD j 0) := by
    rw [List.getLast?_eq_getElem?]
    have h1 : ((l.drop i).take (j + 1 - i)).length = j + 1 - i := by simp; omega
    rw [h1, List.getElem?_take, if_pos (by omega : j + 1 - i - 1 < j + 1 - i),
      List.getElem?_drop]
    have h2 : i + (j + 1 - i - 1) = j := by omega
    rw [h2]
    exact hgetD j (by omega)
  have hBhead : (l.drop (j + 1)).head? = some (l.getD (j + 1) 0) := by
    rw [List.head?_eq_getElem?, List.getElem?_drop]
    have h1 : j + 1 + 0 = j + 1 := by omega
    rw [h1]
    exact hgetD (j + 1) hj
  have hsplitM : l.drop i = (l.drop i).take (j + 1 - i) ++ l.drop (j + 1) := by
    conv_lhs => rw [← List.take_append_drop (j + 1 - i) (l.drop i)]
    rw [List.drop_drop]
    have h2 : i + (j + 1 - i) = j + 1 := by omega
    rw [h2]
  have hsplit : l = l.take i ++ ((l.drop i).take (j + 1 - i) ++ l.drop (j + 1)) := by
    conv_lhs => rw [← List.take_append_drop i l]
    rw [← hsplitM]
  obtain ⟨m, M', hM⟩ : ∃ m M', (l.drop i).take (j + 1 - i) = m :: M' := by
    cases hc : (l.drop i).take (j + 1 - i) with
    | nil => rw [hc] at hMhead; simp at hMhead
    | cons a b => exact ⟨a, b, rfl⟩
  obtain ⟨e, B', hB⟩ : ∃ e B', l.drop (j + 1) = e :: B' := by
    cases hc : l.drop (j + 1) with
    | nil => rw [hc] at hBhead; simp at hBhead
    | cons a b => exact ⟨a, b, rfl⟩
  obtain ⟨rm, RM', hrev⟩ : ∃ rm RM', ((l.drop i).take (j + 1 - i)).reverse = rm :: RM' := by
    cases hc : ((l.drop i).take (j + 1 - i)).reverse with
    | nil => rw [hM] at hc; simp at hc
    | cons a b => exact ⟨a, b, rfl⟩
  have hm : m = l.getD i 0 := by rw [hM] at hMhead; simpa using hMhead
  have he : e = l.getD (j + 1) 0 := by rw [hB] at hBhead; simpa using hBhead
  have hrm : rm = l.getD j 0 := by
    have h0 := List.head?_reverse ((l.drop i).take (j + 1 - i))
    rw [hrev, hMlast] at h0
    simpa using h0
  have hrmlast : (rm :: RM').getLast? = some m := by
    have h0 := List.getLast?_reverse ((l.drop i).take (j + 1 - i))
    rw [hrev, hM] at h0
    simpa using h0
  have hMlast2 : (m :: M').getLast? = some (l.getD j 0) := hM ▸ hMlast
  have hleq : l = l.take i ++ (m :: (M' ++ e :: B')) := by
    conv_lhs => rw [hsplit]
    rw [hM, hB]
    simp only [List.cons_append]
  have hO : routeLen d l = routeLen d (l.take i) + d (l.getD (i - 1) 0) m +
      (routeLen d (m :: M') + d (l.getD j 0) e + routeLen d (e :: B')) := by
    have h0 := congrArg (routeLen d) hleq
    rw [h0, routeLen_append d (l.take i) (l.getD (i - 1) 0) m (M' ++ e :: B') hAlast]
    have h2 : routeLen d (m :: (M' ++ e :: B')) =
        routeLen d (m :: M') + d (l.getD j 0) e + routeLen d (e :: B') :=
      routeLen_append d (m :: M') (l.getD j 0) e B' hMlast2
    rw [h2]
  have hrevlist : reverseSegment l i j = l.take i ++ (rm :: (RM' ++ e :: B')) := by
    unfold reverseSegment
    rw [hrev, hB, List.append_assoc]
    rfl
  have hR : routeLen d (reverseSegment l i j) =
      routeLen d (l.take i) + d (l.getD (i - 1) 0) rm +
        (routeLen d (m :: M') + d m e + routeLen d (e :: B')) := by
    have h0 := congrArg (routeLen d) hrevlist
    rw [h0, routeLen_append d (l.take i) (l.getD (i - 1) 0) rm (RM' ++ e :: B') hAlast]
    have h2 : routeLen d (rm :: (RM' ++ e :: B')) =
        routeLen d (rm :: RM') + d m e + routeLen d (e :: B') :=
      routeLen_append d (rm :: RM') m e B' hrmlast
    rw [h2]
    have hY : routeLen d (rm :: RM') = routeLen d (m :: M') := by
      rw [← hrev, ← hM]
      exact routeLen_reverse d hsym _
    rw [hY]
  rw [hO, hR, hm, he, hrm]
  ring

lemma twoOptEps_pos : (0 : K) < twoOptEps := by
  unfold twoOptEps
  norm_num

lemma twoOptStep_cases (d : ℕ → ℕ → K) (s : List ℕ × Bool) (ij : ℕ × ℕ) :
    twoOptStep d s ij = s ∨
      (twoOptStep d s ij = (reverseSegment s.1 ij.1 ij.2, true) ∧
        d (s.1.getD (ij.1 - 1) 0) (s.1.getD ij.2 0) +
            d (s.1.getD ij.1 0) (s.1.getD (ij.2 + 1) 0) + twoOptEps <
          d (s.1.getD (ij.1 - 1) 0) (s.1.getD ij.1 0) +
            d (s.1.getD ij.2 0) (s.1.getD (ij.2 + 1) 0)) := by
  unfold twoOptStep
  split
  · next h => exact Or.inr ⟨rfl, h⟩
  · exact Or.inl rfl

lemma twoOptFold_perm (d : ℕ → ℕ → K) (n : ℕ) (ps : List (ℕ × ℕ))
    (hps : ∀ p ∈ ps, 1 ≤ p.1 ∧ p.1 < p.2 ∧ p.2 + 1 < n) :
    ∀ b f, b.length = n →
      (ps.foldl (twoOptStep d) (b, f)).1.length = n ∧
      List.Perm (ps.foldl (twoOptStep d) (b, f)).1 b := by
  induction ps with
  | nil => intro b _ hb; exact ⟨hb, List.Perm.refl b⟩
  | cons p rest ih =>
    intro b f hb
    obtain ⟨hp1, hp2, hp3⟩ := hps p (List.mem_cons_self p rest)
    have hrest : ∀ q ∈ rest, 1 ≤ q.1 ∧ q.1 < q.2 ∧ q.2 + 1 < n := fun q hq =>
      hps q (List.mem_cons_of_mem p hq)
    rw [List.foldl_cons]
    rcases twoOptStep_cases d (b, f) p with hcase | ⟨hcase, _⟩
    · rw [hcase]
      exact ih hrest b f hb
    · rw [hcase]
      have hj : p.2 + 1 < b.length := by rw [hb]; exact hp3
      have hlen : (reverseSegment b p.1 p.2).length = n := by
        rw [reverseSegment_length hp2 hj, hb]
      have hperm : List.Perm (reverseSegment b p.1 p.2) b :=
        reverseSegment_perm b p.1 p.2 (by omega)
      obtain ⟨hl2, hperm2⟩ := ih hrest (reverseSegment b p.1 p.2) true hlen
      exact ⟨hl2, hperm2.trans hperm⟩

lemma twoOptFold_spec (d : ℕ → ℕ → K) (hsym : ∀ a b, d a b = d b a)
    (n : ℕ) (ps : List (ℕ × ℕ))
    (hps : ∀ p ∈ ps, 1 ≤ p.1 ∧ p.1 < p.2 ∧ p.2 + 1 < n) :
    ∀ b f, b.length = n →
      (ps.foldl (twoOptStep d) (b, f)).1.length = n ∧
      routeLen d (ps.foldl (twoOptStep d) (b, f)).1 ≤ routeLen d b ∧
      ((ps.foldl (twoOptStep d) (b, f)).2 = false →
        (ps.foldl (twoOptStep d) (b, f)).1 = b ∧ f = false) ∧
      (f = false → (ps.foldl (twoOptStep d) (b, f)).2 = true →
        routeLen d (ps.foldl (twoOptStep d) (b, f)).1 + twoOptEps ≤ routeLen d b) := by
  induction ps with
  | nil =>
    intro b f hb
    refine ⟨hb, le_refl _, fun h => ⟨rfl, h⟩, fun hf ht => ?_⟩
    simp only [List.foldl_nil] at ht
    rw [hf] at ht
    exact absurd ht (by simp)
  | cons p rest ih =>
    intro b f hb
    obtain ⟨hp1, hp2, hp3⟩ := hps p (List.mem_cons_self p rest)
    have hrest : ∀ q ∈ rest, 1 ≤ q.1 ∧ q.1 < q.2 ∧ q.2 + 1 < n := fun q hq =>
      hps q (List.mem_cons_of_mem p hq)
    rw [List.foldl_cons]
    rcases twoOptStep_cases d (b, f) p with hcase | ⟨hcase, hlt⟩
    · rw [hcase]
      exact ih hrest b f hb
    · rw [hcase]
      have hj : p.2 + 1 < b.length := by rw [hb]; exact hp3
      have hlen : (reverseSegment b p.1 p.2).length = n := by
        rw [reverseSegment_length hp2 hj, hb]
      have hkey := routeLen_reverseSegment d hsym b p.1 p.2 hp1 hp2 hj
      have hdec : routeLen d (reverseSegment b p.1 p.2) + twoOptEps < routeLen d b := by
        simp only at hlt
        linarith
      obtain ⟨ih1, ih2, ih3, _⟩ := ih hrest (reverseSegment b p.1 p.2) true hlen
      refine ⟨ih1, ?_, ?_, ?_⟩
      · have heps := twoOptEps_pos (K := K)
        linarith
      · intro hfalse
        obtain ⟨_, htrue⟩ := ih3 hfalse
        exact absurd htrue (by simp)
      · intro _ _
        linarith

lemma twoOptPass_spec (d : ℕ → ℕ → K) (hsym : ∀ a b, d a b = d b a) (b : List ℕ) :
    (twoOptPass d b).1.length = b.length ∧
    routeLen d (twoOptPass d b).1 ≤ routeLen d b ∧
    ((twoOptPass d b).2 = false → (twoOptPass d b).1 = b) ∧
    ((twoOptPass d b).2 = true →
      routeLen d (twoOptPass d b).1 + twoOptEps ≤ routeLen d b) := by
  have h := twoOptFold_spec d hsym b.length (pairsList b.length)
    (fun p hp => pairsList_mem hp) b false rfl
  exact ⟨h.1, h.2.1, fun hf => (h.2.2.1 hf).1, fun ht => h.2.2.2 rfl ht⟩

lemma twoOptPass_perm (d : ℕ → ℕ → K) (b : List ℕ) :
    List.Perm (twoOptPass d b).1 b :=
  (twoOptFold_perm d b.length (pairsList b.length)
    (fun _ hp => pairsList_mem hp) b false rfl).2

lemma twoOptLoop_routeLen_le (d : ℕ → ℕ → K) (hsym : ∀ a b, d a b = d b a)
    (fuel : ℕ) (b : List ℕ) :
    routeLen d (twoOptLoop d fuel b) ≤ routeLen d b := by
  induction fuel generalizing b with
  | zero => exact le_refl _
  | succ fuel ih =>
    unfold twoOptLoop
    split
    · exact le_trans (ih _) (twoOptPass_spec d hsym b).2.1
    · exact (twoOptPass_spec d hsym b).2.1

lemma twoOptLoop_perm (d : ℕ → ℕ → K) (fuel : ℕ) (b : List ℕ) :
    List.Perm (twoOptLoop d fuel b) b := by
  induction fuel generalizing b with
  | zero => exact List.Perm.refl b
  | succ fuel ih =>
    unfold twoOptLoop
    split
    · exact (ih _).trans (twoOptPass_perm d b)
    · exact twoOptPass_perm d b

/-- C3: for every input order and every (symmetric) distance assignment, the
order returned by the 2-opt improvement phase has total route length at most
that of its input order, re-summed along consecutive stops — every accepted
reversal strictly shortens the tour, and a pass that accepts nothing returns
its input unchanged. `fuel` bounds the number of `while improved` passes. -/
theorem two_opt_no_regress (d : ℕ → ℕ → K) (hsym : ∀ a b, d a b = d b a)
    (fuel : ℕ) (order : List ℕ) :
    routeLen d (twoOptLoop d fuel order) ≤ routeLen d order :=
  twoOptLoop_routeLen_le d hsym fuel order

/-- Witness for C3 at a concrete input: four stops on a line with
`d i j = |i - j|`, input order `[0, 2, 1, 3]` (a crossed tour that 2-opt
uncrosses). -/
theorem two_opt_no_regress_witness :
    (∀ a b : ℕ, ((max a b - min a b : ℕ) : ℚ) = ((max b a - min b a : ℕ) : ℚ)) ∧
    routeLen (fun i j : ℕ => ((max i j - min i j : ℕ) : ℚ))
        (twoOptLoop (fun i j : ℕ => ((max i j - min i j : ℕ) : ℚ)) 2 [0, 2, 1, 3]) ≤
      routeLen (fun i j : ℕ => ((max i j - min i j : ℕ) : ℚ)) [0, 2, 1, 3] :=
  ⟨fun a b => by simp [Nat.max_comm a b, Nat.min_comm a b],
    two_opt_no_regress (fun i j : ℕ => ((max i j - min i j : ℕ) : ℚ))
      (fun a b => by simp [Nat.max_comm a b, Nat.min_comm a b]) 2 [0, 2, 1, 3]⟩

lemma routeLen_nonneg (d : ℕ → ℕ → K) (hnn : ∀ a b, 0 ≤ d a b) (l : List ℕ) :
    0 ≤ routeLen d l := by
  induction l with
  | nil => simp [routeLen]
  | cons a t ih =>
    cases t with
    | nil => simp [routeLen]
    | cons b t2 =>
      show (0 : K) ≤ d a b + routeLen d (b :: t2)
      exact add_nonneg (hnn a b) ih

lemma twoOpt_passes_stabilize (d : ℕ → ℕ → K) (hsym : ∀ a b, d a b = d b a)
    (hnn : ∀ a b, 0 ≤ d a b) :
    ∀ (k : ℕ) (b : List ℕ), routeLen d b ≤ k • (twoOptEps : K) →
      ∃ N, (twoOptPass d (passIter d N b)).2 = false := by
  intro k
  induction k with
  | zero =>
    intro b hb
    by_cases himp : (twoOptPass d b).2 = true
    · exfalso
      have h1 := (twoOptPass_spec d hsym b).2.2.2 himp
      have h2 := routeLen_nonneg d hnn (twoOptPass d b).1
      have heps := twoOptEps_pos (K := K)
      rw [zero_smul] at hb
      linarith
    · simp only [Bool.not_eq_true] at himp
      exact ⟨0, himp⟩
  | succ k ih =>
    intro b hb
    by_cases himp : (twoOptPass d b).2 = true
    · have h1 := (twoOptPass_spec d hsym b).2.2.2 himp
      have hsmul : (k + 1) • (twoOptEps : K) = k • (twoOptEps : K) + twoOptEps :=
        succ_nsmul _ k
      have hb2 : routeLen d (twoOptPass d b).1 ≤ k • (twoOptEps : K) := by
        rw [hsmul] at hb
        linarith
      obtain ⟨N, hN⟩ := ih (twoOptPass d b).1 hb2
      exact ⟨N + 1, hN⟩
    · simp only [Bool.not_eq_true] at himp
      exact ⟨0, himp⟩

/-- C5: the `while improved` loop of `two_opt` always terminates: for every
input order and every symmetric nonnegative (archimedean) distance
assignment, some finite number of passes reaches a pass that accepts no
reversal, because each improving pass shortens the tour by more than `1e-9`
and the tour length is bounded below by zero. -/
theorem two_opt_terminates [Archimedean K] (d : ℕ → ℕ → K)
    (hsym : ∀ a b, d a b = d b a) (hnn : ∀ a b, 0 ≤ d a b) (order : List ℕ) :
    ∃ N, (twoOptPass d (passIter d N order)).2 = false := by
  obtain ⟨k, hk⟩ := Archimedean.arch (routeLen d order) (twoOptEps_pos (K := K))
  exact twoOpt_passes_stabilize d hsym hnn k order hk

/-- A concrete symmetric distance for witnesses: stops on a line,
`d i j = |i - j|` as a rational. -/
def distLine (i j : ℕ) : ℚ := ((max i j - min i j : ℕ) : ℚ)

lemma distLine_symm (a b : ℕ) : distLine a b = distLine b a := by
  unfold distLine
  rw [Nat.max_comm, Nat.min_comm]

lemma distLine_nonneg (a b : ℕ) : 0 ≤ distLine a b := by
  unfold distLine
  positivity

/-- Witness for C5 at a concrete input: the crossed four-stop line tour. -/
theorem two_opt_terminates_witness :
    (∀ a b, distLine a b = distLine b a) ∧ (∀ a b, 0 ≤ distLine a b) ∧
    ∃ N, (twoOptPass distLine (passIter distLine N [0, 2, 1, 3])).2 = false :=
  ⟨distLine_symm, distLine_nonneg,
    two_opt_terminates distLine distLine_symm distLine_nonneg [0, 2, 1, 3]⟩

lemma minFold_mem (f : ℕ → K) (js : List ℕ) : ∀ b, minFold f b js ∈ b :: js := by
  induction js with
  | nil => intro b; simp [minFold]
  | cons j rest ih =>
    intro b
    have hstep : minFold f b (j :: rest) = minFold f (if f j < f b then j else b) rest := rfl
    rw [hstep]
    rcases List.mem_cons.mp (ih (if f j < f b then j else b)) with h1 | h2
    · rw [h1]
      split
      · simp
      · simp
    · simp [h2]

/-- The characterization of CPython `min` with strict-improvement folding over
a strictly ascending candidate list: it returns the least-index minimizer. -/
lemma minFold_spec (f : ℕ → K) (js : List ℕ) :
    ∀ b, (b :: js).Sorted (· < ·) →
      (∀ x ∈ b :: js, f (minFold f b js) ≤ f x) ∧
      (∀ x ∈ b :: js, f x = f (minFold f b js) → minFold f b js ≤ x) := by
  induction js with
  | nil =>
    intro b _
    constructor
    · intro x hx
      simp only [List.mem_singleton] at hx
      subst hx
      exact le_refl _
    · intro x hx _
      simp only [List.mem_singleton] at hx
      subst hx
      exact le_refl _
  | cons j rest ih =>
    intro b hsort
    have hstep : minFold f b (j :: rest) = minFold f (if f j < f b then j else b) rest := rfl
    have hbj : b < j := (List.sorted_cons.mp hsort).1 j (by simp)
    have hball : ∀ x ∈ j :: rest, b < x := (List.sorted_cons.mp hsort).1
    have hsortj : (j :: rest).Sorted (· < ·) := (List.sorted_cons.mp hsort).2
    have hsortb : (b :: rest).Sorted (· < ·) := by
      rw [List.sorted_cons]
      exact ⟨fun x hx => hball x (List.mem_cons_of_mem j hx),
        (List.sorted_cons.mp hsortj).2⟩
    by_cases hc : f j < f b
    · have hred : minFold f b (j :: rest) = minFold f j rest := by
        rw [hstep, if_pos hc]
      obtain ⟨hmin, htie⟩ := ih j hsortj
      have hmem := minFold_mem f rest j
      rw [hred]
      constructor
      · intro x hx
        rcases List.mem_cons.mp hx with hxb | hxr
        · rw [hxb]
          exact le_of_lt (lt_of_le_of_lt (hmin j (by simp)) hc)
        · exact hmin x hxr
      · intro x hx hfx
        rcases List.mem_cons.mp hx with hxb | hxr
        · exfalso
          rw [hxb] at hfx
          have h1 : f (minFold f j rest) ≤ f j := hmin j (by simp)
          linarith [lt_of_le_of_lt h1 hc]
        · exact htie x hxr hfx
    · have hred : minFold f b (j :: rest) = minFold f b rest := by
        rw [hstep, if_neg hc]
      obtain ⟨hmin, htie⟩ := ih b hsortb
      have hfb : f b ≤ f j := le_of_not_lt hc
      rw [hred]
      constructor
      · intro x hx
        rcases List.mem_cons.mp hx with hxb | hxr
        · rw [hxb]
          exact hmin b (by simp)
        · rcases List.mem_cons.mp hxr with hxj | hxr2
          · rw [hxj]
            exact le_trans (hmin b (by simp)) hfb
          · exact hmin x (List.mem_cons_of_mem b hxr2)
      · intro x hx hfx
        rcases List.mem_cons.mp hx with hxb | hxr
        · rw [hxb] at hfx ⊢
          exact htie b (by simp) hfx
        · rcases List.mem_cons.mp hxr with hxj | hxr2
          · rw [hxj] at hfx ⊢
            have h1 : f (minFold f b rest) ≤ f b := hmin b (by simp)
            have h2 : minFold f b rest ≤ b := htie b (by simp) (by linarith)
            omega
          · exact htie x (List.mem_cons_of_mem b hxr2) hfx

lemma argminFirst_mem {f : ℕ → K} {js : List ℕ} {m : ℕ}
    (h : argminFirst f js = some m) : m ∈ js := by
  cases js with
  | nil => simp [argminFirst] at h
  | cons j rest =>
    have h2 : minFold f j rest = m := by simpa [argminFirst] using h
    rw [← h2]
    exact minFold_mem f rest j

lemma sentinelFold_eq (f : ℕ → K) (js : List ℕ) :
    ∀ b, js.foldl (fun acc j => if f j < acc.2 then (some j, f j) else acc)
        ((some b : Option ℕ), f b) =
      (some (minFold f b js), f (minFold f b js)) := by
  induction js with
  | nil => intro b; simp [minFold]
  | cons j rest ih =>
    intro b
    rw [List.foldl_cons]
    dsimp only
    by_cases hc : f j < f b
    · rw [if_pos hc, ih j]
      have hred : minFold f b (j :: rest) = minFold f j rest := by
        have hstep : minFold f b (j :: rest) =
          minFold f (if f j < f b then j else b) rest := rfl
        rw [hstep, if_pos hc]
      rw [hred]
    · rw [if_neg hc, ih b]
      have hred : minFold f b (j :: rest) = minFold f b rest := by
        have hstep : minFold f b (j :: rest) =
          minFold f (if f j < f b then j else b) rest := rfl
        rw [hstep, if_neg hc]
      rw [hred]

lemma argminSentinel_eq (f : ℕ → K) (js : List ℕ)
    (hbound : ∀ j ∈ js, f j < 10 ^ 12) :
    argminSentinel f js = argminFirst f js := by
  cases js with
  | nil => rfl
  | cons j rest =>
    unfold argminSentinel
    rw [List.foldl_cons]
    dsimp only
    have hj : f j < (10 ^ 12 : K) := hbound j (by simp)
    rw [if_pos hj, sentinelFold_eq f rest j]
    rfl

/-- C9: at every selection step of the nearest-neighbor construction, both
route-optimization variants pick, among the unvisited stops (kept in
ascending original-index order), the minimizer of the distance key with exact
ties broken by the lower original index: the selected stop `m` is a
minimizer, and any other stop at exactly the minimum distance has index
`≥ m`. The `routing_opt.py` variant is `argminFirst` (CPython `min` over the
ascending set) and the `optimize_route.py` variant is `argminSentinel`
(sentinel `1e12`, update on strict improvement); they agree whenever every
distance is below the sentinel (true for haversine distances, which are at
most half the Earth's circumference). -/
theorem nearest_neighbor_tie_break (f : ℕ → K) (js : List ℕ)
    (hsort : js.Sorted (· < ·)) (hne : js ≠ [])
    (hbound : ∀ j ∈ js, f j < 10 ^ 12) :
    ∃ m, argminFirst f js = some m ∧ argminSentinel f js = some m ∧ m ∈ js ∧
      (∀ x ∈ js, f m ≤ f x) ∧ (∀ x ∈ js, f x = f m → m ≤ x) := by
  cases js with
  | nil => exact absurd rfl hne
  | cons j rest =>
    obtain ⟨hmin, htie⟩ := minFold_spec f rest j hsort
    refine ⟨minFold f j rest, rfl, ?_, minFold_mem f rest j, hmin, htie⟩
    rw [argminSentinel_eq f (j :: rest) hbound]
    rfl

/-- Witness for C9 at a concrete input: stops `[0, 1, 2]` with distance key
`5, 3, 3` — stops 1 and 2 tie at the minimum and stop 1 (lower index) is
chosen by both variants. -/
theorem nearest_neighbor_tie_break_witness :
    ([0, 1, 2] : List ℕ).Sorted (· < ·) ∧ ([0, 1, 2] : List ℕ) ≠ [] ∧
    (∀ j ∈ ([0, 1, 2] : List ℕ),
      (fun j : ℕ => if j = 0 then (5 : ℚ) else 3) j < 10 ^ 12) ∧
    ∃ m, argminFirst (fun j : ℕ => if j = 0 then (5 : ℚ) else 3) [0, 1, 2] = some m ∧
      argminSentinel (fun j : ℕ => if j = 0 then (5 : ℚ) else 3) [0, 1, 2] = some m ∧
      m ∈ ([0, 1, 2] : List ℕ) ∧
      (∀ x ∈ ([0, 1, 2] : List ℕ),
        (fun j : ℕ => if j = 0 then (5 : ℚ) else 3) m ≤
          (fun j : ℕ => if j = 0 then (5 : ℚ) else 3) x) ∧
      (∀ x ∈ ([0, 1, 2] : List ℕ),
        (fun j : ℕ => if j = 0 then (5 : ℚ) else 3) x =
          (fun j : ℕ => if j = 0 then (5 : ℚ) else 3) m → m ≤ x) :=
  ⟨by decide, by decide, by norm_num,
    nearest_neighbor_tie_break (fun j : ℕ => if j = 0 then (5 : ℚ) else 3)
      [0, 1, 2] (by decide) (by decide) (by norm_num)⟩

lemma nnLoop_perm (d : ℕ → ℕ → K) :
    ∀ (fuel : ℕ) (unvis : List ℕ) (last : ℕ), unvis.length ≤ fuel →
      List.Perm (nnLoop d fuel last unvis) unvis := by
  intro fuel
  induction fuel with
  | zero =>
    intro unvis last h
    have hnil : unvis = [] := List.length_eq_zero.mp (Nat.le_zero.mp h)
    subst hnil
    simp [nnLoop]
  | succ fuel ih =>
    intro unvis last h
    cases hargmin : argminFirst (fun j => d last j) unvis with
    | none =>
      cases unvis with
      | nil =>
        unfold nnLoop
        rw [hargmin]
      | cons a b => simp [argminFirst] at hargmin
    | some nxt =>
      have hmem : nxt ∈ unvis := argminFirst_mem hargmin
      have hpos : 0 < unvis.length := List.length_pos.mpr (List.ne_nil_of_mem hmem)
      have hlen : (unvis.erase nxt).length ≤ fuel := by
        rw [List.length_erase_of_mem hmem]
        omega
      have hstep : nnLoop d (fuel + 1) last unvis =
          nxt :: nnLoop d fuel nxt (unvis.erase nxt) := by
        conv_lhs => unfold nnLoop
        rw [hargmin]
      rw [hstep]
      exact ((ih (unvis.erase nxt) nxt hlen).cons nxt).trans
        (List.perm_cons_erase hmem).symm

lemma nearestNeighbor_perm (d : ℕ → ℕ → K) (n : ℕ) (hn : 0 < n) :
    List.Perm (nearestNeighbor d n 0) (List.range n) := by
  unfold nearestNeighbor
  have h0 : (0 : ℕ) ∈ List.range n := List.mem_range.mpr hn
  have hlen : ((List.range n).erase 0).length ≤ n := by
    rw [List.length_erase_of_mem h0, List.length_range]
    omega
  exact ((nnLoop_perm d n ((List.range n).erase 0) 0 hlen).cons 0).trans
    (List.perm_cons_erase h0).symm

/-- C4: for every non-empty stop set (stops identified by input index
`0..n-1`) and every distance assignment, the order produced by the route
sequencer — nearest-neighbor construction from the first stop followed by any
number of 2-opt passes — is a permutation of the input stop identifiers: same
multiset, no duplicates, no omissions. -/
theorem sequence_order_perm (d : ℕ → ℕ → K) (n fuel : ℕ) (hn : 0 < n) :
    List.Perm (twoOptLoop d fuel (nearestNeighbor d n 0)) (List.range n) :=
  (twoOptLoop_perm d fuel _).trans (nearestNeighbor_perm d n hn)

/-- Witness for C4 at a concrete input: four stops on a line. -/
theorem sequence_order_perm_witness :
    0 < 4 ∧ List.Perm (twoOptLoop distLine 2 (nearestNeighbor distLine 4 0)) (List.range 4) :=
  ⟨by decide, sequence_order_perm distLine 4 2 (by decide)⟩

end Routing

section GeoDistance

/-!
The two haversine implementations, in exact real semantics: `haversine_km` of
`routing_opt.py` (radius 6371.0088, `2 R asin(sqrt a)`) and `haversine_km` of
`optimize_route.py` (radius 6371.0, `R * 2 * atan2(sqrt a, sqrt (1-a))`).
Neither implementation clamps `a` before the square root / inverse-trig step.
-/

/-- Model of `math.radians`: degrees to radians, in exact real arithmetic. -/
noncomputable def radians (x : ℝ) : ℝ := x * (Real.pi / 180)

/-- The inner haversine term `a` as computed by `haversine_km` in
`routing_opt.py` (lines 13-19). -/
noncomputable def havARouting (lat1 lon1 lat2 lon2 : ℝ) : ℝ :=
  Real.sin (radians (lat2 - lat1) / 2) ^ 2 +
    Real.cos (radians lat1) * Real.cos (radians lat2) *
      Real.sin (radians (lon2 - lon1) / 2) ^ 2

/-- Model of `haversine_km` in `routing_opt.py` (lines 10-20):
`2 * R * asin(sqrt(a))` with mean Earth radius `R = 6371.0088` km. -/
noncomputable def haversineKmRouting (lat1 lon1 lat2 lon2 : ℝ) : ℝ :=
  2 * 6371.0088 * Real.arcsin (Real.sqrt (havARouting lat1 lon1 lat2 lon2))

open scoped Classical in
/-- The C-library `atan2(y, x)` used by Python `math.atan2`. -/
noncomputable def atan2 (y x : ℝ) : ℝ :=
  if 0 < x then Real.arctan (y / x)
  else if x < 0 ∧ 0 ≤ y then Real.arctan (y / x) + Real.pi
  else if x < 0 ∧ y < 0 then Real.arctan (y / x) - Real.pi
  else if x = 0 ∧ 0 < y then Real.pi / 2
  else if x = 0 ∧ y < 0 then -(Real.pi / 2)
  else 0

/-- The inner term `a` as computed by `haversine_km` in `optimize_route.py`
(lines 9-13; there `dlat = radians(lat2) - radians(lat1)`). -/
noncomputable def havAOptimize (lat1 lon1 lat2 lon2 : ℝ) : ℝ :=
  Real.sin ((radians lat2 - radians lat1) / 2) ^ 2 +
    Real.cos (radians lat1) * Real.cos (radians lat2) *
      Real.sin (radians (lon2 - lon1) / 2) ^ 2

/-- Model of `haversine_km` in `optimize_route.py` (lines 6-15):
`R * c` with `c = 2 * atan2(sqrt(a), sqrt(1-a))` and `R = 6371.0` km. -/
noncomputable def haversineKmOptimize (lat1 lon1 lat2 lon2 : ℝ) : ℝ :=
  6371.0 * (2 * atan2 (Real.sqrt (havAOptimize lat1 lon1 lat2 lon2))
    (Real.sqrt (1 - havAOptimize lat1 lon1 lat2 lon2)))

lemma radians_sub (a b : ℝ) : radians a - radians b = radians (a - b) := by
  unfold radians
  ring

lemma havA_eq (lat1 lon1 lat2 lon2 : ℝ) :
    havAOptimize lat1 lon1 lat2 lon2 = havARouting lat1 lon1 lat2 lon2 := by
  unfold havAOptimize havARouting
  rw [radians_sub]

lemma sin_sq_half_eq (u : ℝ) : Real.sin (u / 2) ^ 2 = (1 - Real.cos u) / 2 := by
  have h := Real.cos_two_mul (u / 2)
  have h2 : (2 : ℝ) * (u / 2) = u := by ring
  rw [h2] at h
  have h3 := Real.sin_sq (u / 2)
  linarith

/-- In exact real arithmetic the haversine inner term always lies in `[0, 1]`
— for arbitrary finite inputs, not only latitudes within `[-90, 90]`. -/
lemma havARouting_nonneg_le_one (lat1 lon1 lat2 lon2 : ℝ) :
    0 ≤ havARouting lat1 lon1 lat2 lon2 ∧ havARouting lat1 lon1 lat2 lon2 ≤ 1 := by
  unfold havARouting
  set p := radians lat1 with hp
  set q := radians lat2 with hq
  set s := Real.sin (radians (lon2 - lon1) / 2) ^ 2 with hs
  have hs0 : 0 ≤ s := sq_nonneg _
  have hs1 : s ≤ 1 := by rw [hs]; exact Real.sin_sq_le_one _
  have hrad : radians (lat2 - lat1) = q - p := by
    rw [hp, hq]
    exact (radians_sub lat2 lat1).symm
  rw [hrad, sin_sq_half_eq]
  have hc : Real.cos p * Real.cos q = (Real.cos (q - p) + Real.cos (q + p)) / 2 := by
    rw [Real.cos_sub, Real.cos_add]
    ring
  rw [hc]
  have h1 : -1 ≤ Real.cos (q - p) := Real.neg_one_le_cos _
  have h2 : Real.cos (q - p) ≤ 1 := Real.cos_le_one _
  have h3 : -1 ≤ Real.cos (q + p) := Real.neg_one_le_cos _
  have h4 : Real.cos (q + p) ≤ 1 := Real.cos_le_one _
  constructor
  · nlinarith [mul_nonneg (show (0 : ℝ) ≤ (1 - Real.cos (q - p)) / 2 by linarith)
        (show (0 : ℝ) ≤ 1 - s by linarith),
      mul_nonneg (show (0 : ℝ) ≤ (1 + Real.cos (q + p)) / 2 by linarith) hs0]
  · nlinarith [mul_nonneg (show (0 : ℝ) ≤ (1 + Real.cos (q - p)) / 2 by linarith)
        (show (0 : ℝ) ≤ 1 - s by linarith),
      mul_nonneg (show (0 : ℝ) ≤ (1 - Real.cos (q + p)) / 2 by linarith) hs0]

/-- For `a ∈ [0, 1]`, `asin(sqrt a)` and `atan2(sqrt a, sqrt (1-a))` agree:
the two inverse-trig formulations of the haversine angle are equivalent. -/
lemma arcsin_sqrt_eq_atan2 {a : ℝ} (h0 : 0 ≤ a) (h1 : a ≤ 1) :
    Real.arcsin (Real.sqrt a) = atan2 (Real.sqrt a) (Real.sqrt (1 - a)) := by
  rcases lt_or_eq_of_le h1 with hlt | heq
  · have hxpos : 0 < Real.sqrt (1 - a) := Real.sqrt_pos.mpr (by linarith)
    unfold atan2
    rw [if_pos hxpos]
    have hmem : Real.sqrt a ∈ Set.Ioo (-(1 : ℝ)) 1 := by
      constructor
      · have := Real.sqrt_nonneg a
        linarith
      · calc Real.sqrt a < Real.sqrt 1 := Real.sqrt_lt_sqrt h0 hlt
          _ = 1 := Real.sqrt_one
    rw [Real.arcsin_eq_arctan hmem, Real.sq_sqrt h0]
  · subst heq
    rw [Real.sqrt_one, show (1 : ℝ) - 1 = 0 by ring, Real.sqrt_zero, Real.arcsin_one]
    unfold atan2
    norm_num

/-- C8 (counterexample): the two haversine implementations are not equal — at
the equator-antipode pair `(0°, 0°)` to `(0°, 180°)` the `routing_opt.py`
variant returns `6371.0088 π` km while the `optimize_route.py` variant
returns `6371 π` km: they use different Earth radii. -/
theorem haversine_variants_differ :
    haversineKmRouting 0 0 0 180 ≠ haversineKmOptimize 0 0 0 180 := by
  have hrad180 : radians (180 - 0) = Real.pi := by
    unfold radians
    ring
  have hrad0 : radians (0 - 0) = 0 := by
    unfold radians
    ring
  have hrad0' : radians 0 = 0 := by
    unfold radians
    ring
  have hA : havARouting 0 0 0 180 = 1 := by
    unfold havARouting
    rw [hrad0, hrad180, hrad0']
    simp [Real.sin_pi_div_two]
  have hAo : havAOptimize 0 0 0 180 = 1 := by
    rw [havA_eq]
    exact hA
  have hR : haversineKmRouting 0 0 0 180 = 2 * 6371.0088 * (Real.pi / 2) := by
    unfold haversineKmRouting
    rw [hA, Real.sqrt_one, Real.arcsin_one]
  have hO : haversineKmOptimize 0 0 0 180 = 6371.0 * (2 * (Real.pi / 2)) := by
    unfold haversineKmOptimize
    rw [hAo, Real.sqrt_one, show (1 : ℝ) - 1 = 0 by ring, Real.sqrt_zero]
    unfold atan2
    norm_num
  rw [hR, hO]
  intro heq
  nlinarith [Real.pi_pos]

/-- C8 (amended): the two variants compute proportional — not equal — values:
for every input, the `routing_opt.py` haversine equals `6371.0088 / 6371`
times the `optimize_route.py` haversine (the angle computations agree; only
the Earth radii differ). -/
theorem haversine_variants_proportional (lat1 lon1 lat2 lon2 : ℝ) :
    haversineKmRouting lat1 lon1 lat2 lon2 =
      (63710088 / 63710000) * haversineKmOptimize lat1 lon1 lat2 lon2 := by
  obtain ⟨h0, h1⟩ := havARouting_nonneg_le_one lat1 lon1 lat2 lon2
  unfold haversineKmRouting haversineKmOptimize
  rw [havA_eq, ← arcsin_sqrt_eq_atan2 h0 h1]
  have hnum : (6371.0088 : ℝ) = 63710088 / 10000 := by norm_num
  have hnum2 : (6371.0 : ℝ) = 6371 := by norm_num
  rw [hnum, hnum2]
  ring

open scoped Classical in
/-- The domain-checked exact semantics of `haversine_km` in `routing_opt.py`:
`math.sqrt` raises (`none`) on a negative argument and `math.asin` raises
outside `[-1, 1]`. The code applies them to the raw `a` — no clamp of `a` to
`[0, 1]` exists in either implementation. -/
noncomputable def haversineKmRoutingChecked (lat1 lon1 lat2 lon2 : ℝ) : Option ℝ :=
  if havARouting lat1 lon1 lat2 lon2 < 0 then none
  else if 1 < Real.sqrt (havARouting lat1 lon1 lat2 lon2) then none
  else some (haversineKmRouting lat1 lon1 lat2 lon2)

/-- C6 (supporting theorem): in the exact-real semantics the unclamped code
never takes the sqrt/asin error branch, because the inner term provably lies
in `[0, 1]` for all finite inputs; the clamp the claim describes is absent
from the code, and the domain errors the clamp would prevent arise only from
floating-point overshoot of that term past 1, which exact arithmetic does not
exhibit. -/
theorem haversine_no_domain_error_exact (lat1 lon1 lat2 lon2 : ℝ) :
    haversineKmRoutingChecked lat1 lon1 lat2 lon2 =
      some (haversineKmRouting lat1 lon1 lat2 lon2) := by
  obtain ⟨h0, h1⟩ := havARouting_nonneg_le_one lat1 lon1 lat2 lon2
  unfold haversineKmRoutingChecked
  rw [if_neg (not_lt.mpr h0), if_neg]
  rw [not_lt]
  calc Real.sqrt (havARouting lat1 lon1 lat2 lon2) ≤ Real.sqrt 1 :=
        Real.sqrt_le_sqrt h1
    _ = 1 := Real.sqrt_one

end GeoDistance

end SmartDelivery
